import Mathlib

/-!
Verification of the ebpf library core against its specification.

The Go sources `syscalls.go` and `prog.go` are embedded directly.  The
instruction codec, the editor and the ELF map loader are exercised only by
tests in the repository snapshot; those parts are modelled from the
specification (each such definition says so in its doc comment).

Machine integers are modelled as `Nat` (unsigned fields) and `Int` (signed
fields) with explicit reductions modulo powers of two where the code
truncates.  Go strings are modelled as `List Char`, byte buffers as
`List Nat` with each element < 256.
-/

set_option maxRecDepth 4000

/-! ## Object names (`syscalls.go`) -/

/-- `bpfObjNameLen` from syscalls.go: the kernel object-name field is 16 bytes. -/
def bpfObjNameLen : Nat := 16

/-- `bpfObjName` from syscalls.go: a 16-byte, NUL-padded name, modelled as the
list of its bytes. -/
structure bpfObjName where
  bytes : List Nat
deriving DecidableEq, Repr

/-- The zero value `bpfObjName{}` of Go: 16 zero bytes. -/
def bpfObjName.zero : bpfObjName := ⟨List.replicate bpfObjNameLen 0⟩

/-- `invalidBPFObjNameChar` from syscalls.go: true iff the rune is outside
`[A-Za-z0-9_]`. -/
def invalidBPFObjNameChar (char : Char) : Bool :=
  if 'A' ≤ char ∧ char ≤ 'Z' then false
  else if 'a' ≤ char ∧ char ≤ 'z' then false
  else if '0' ≤ char ∧ char ≤ '9' then false
  else if char = '_' then false
  else true

/-- A character as the byte Go's `copy` would move (names that pass validation
are ASCII, where the UTF-8 encoding is the code point itself). -/
def charToByte (c : Char) : Nat := c.toNat % 256

/-- The byte image of `var result bpfObjName; copy(result[:bpfObjNameLen-1], name)`:
at most the first 15 bytes of the name, zero-padded to 16 bytes. -/
def mkObjNameBytes (name : List Char) : List Nat :=
  let copied := (name.map charToByte).take (bpfObjNameLen - 1)
  copied ++ List.replicate (bpfObjNameLen - copied.length) 0

/-- `newBPFObjName` from syscalls.go.  The second component models the returned
error: `some c` stands for the invalid-character error naming the first
offending rune `c` (found via `strings.IndexFunc`), `none` for a nil error.
On error Go returns the zero `bpfObjName{}`. -/
def newBPFObjName (name : List Char) : bpfObjName × Option Char :=
  match name.find? (fun c => invalidBPFObjNameChar c) with
  | some c => (bpfObjName.zero, some c)
  | none => (⟨mkObjNameBytes name⟩, none)

/-! ## Instruction model and codec

Modelled from the spec: the `asm` instruction package is not part of the
snapshot (only its tests are).  §3 and §4.1 of the spec fix the layout:
8 bytes per wire slot — opcode (8 bits), dst/src registers (4 bits each in
one byte, dst in the low nibble), a signed 16-bit offset, a signed 32-bit
immediate — and a 64-bit immediate load (`ldDWImm`) occupying two slots. -/

/-- Opcode of the 64-bit immediate load (`BPF_LD | BPF_DW | BPF_IMM`). -/
def ldDWImm : Nat := 0x18

/-- Opcode of the call instruction (`BPF_JMP | BPF_CALL`). -/
def callOp : Nat := 0x85

/-- Opcode of the exit instruction (`BPF_JMP | BPF_EXIT`). -/
def exitOp : Nat := 0x95

/-- Modelled from the spec: a logical instruction (§3).  `constant` is the
in-memory signed 64-bit constant; `reference` and `symbol` are the two
optional labels of §4.2. -/
structure Instruction where
  opCode : Nat
  dstReg : Nat
  srcReg : Nat
  offset : Int
  constant : Int
  reference : Option String
  symbol : Option String
deriving DecidableEq, Repr

/-- Number of wire slots a logical instruction occupies: 2 for a 64-bit
immediate load, 1 otherwise (§3). -/
def Instruction.slots (i : Instruction) : Nat :=
  if i.opCode = ldDWImm then 2 else 1

/-- Wire-slot length of a sequence: the sum of its elements' slot counts. -/
def wireLen (insns : List Instruction) : Nat :=
  (insns.map Instruction.slots).sum

/-- Wire-slot index of the logical element at position `j`. -/
def wireOffset (insns : List Instruction) (j : Nat) : Nat :=
  wireLen (insns.take j)

/-- Little-endian unsigned 16-bit value from two bytes. -/
def u16ofLE (b0 b1 : Nat) : Nat := b0 % 256 + 256 * (b1 % 256)

/-- Little-endian unsigned 32-bit value from four bytes. -/
def u32ofLE (b0 b1 b2 b3 : Nat) : Nat :=
  b0 % 256 + 256 * (b1 % 256) + 65536 * (b2 % 256) + 16777216 * (b3 % 256)

/-- Reinterpret an unsigned 16-bit value as signed. -/
def toInt16 (n : Nat) : Int :=
  if n % 2 ^ 16 < 2 ^ 15 then (n % 2 ^ 16 : Nat) else (n % 2 ^ 16 : Nat) - 2 ^ 16

/-- Reinterpret an unsigned 32-bit value as signed. -/
def toInt32 (n : Nat) : Int :=
  if n % 2 ^ 32 < 2 ^ 31 then (n % 2 ^ 32 : Nat) else (n % 2 ^ 32 : Nat) - 2 ^ 32

/-- Reinterpret an unsigned 64-bit value as signed. -/
def toInt64 (n : Nat) : Int :=
  if n % 2 ^ 64 < 2 ^ 63 then (n % 2 ^ 64 : Nat) else (n % 2 ^ 64 : Nat) - 2 ^ 64

/-- Modelled from the spec: `loadInstructions` (§4.1) — the decoder of the
`asm` package, absent from the snapshot.  Reads 8 bytes per slot; on a 64-bit
immediate load it also consumes the next slot, requires that slot's opcode to
be zero, and combines the two unsigned immediate halves into a signed 64-bit
constant (low half first, high half second).  Any leftover shorter than a
slot, a truncated 64-bit load, or a non-zero trailing opcode is a
malformed-instruction error. -/
def loadInstructions : List Nat → Except String (List Instruction)
  | [] => .ok []
  | b0 :: b1 :: b2 :: b3 :: b4 :: b5 :: b6 :: b7 :: rest =>
    if b0 = ldDWImm then
      match rest with
      | c0 :: _c1 :: _c2 :: _c3 :: c4 :: c5 :: c6 :: c7 :: rest2 =>
        if c0 ≠ 0 then .error "malformed-instruction" else
          match loadInstructions rest2 with
          | .error e => .error e
          | .ok tail =>
            .ok ({ opCode := b0, dstReg := b1 % 16, srcReg := b1 / 16 % 16,
                   offset := toInt16 (u16ofLE b2 b3),
                   constant := toInt64 (u32ofLE b4 b5 b6 b7
                     + 2 ^ 32 * u32ofLE c4 c5 c6 c7),
                   reference := none, symbol := none } :: tail)
      | _ => .error "malformed-instruction"
    else
      match loadInstructions rest with
      | .error e => .error e
      | .ok tail =>
        .ok ({ opCode := b0, dstReg := b1 % 16, srcReg := b1 / 16 % 16,
               offset := toInt16 (u16ofLE b2 b3),
               constant := toInt32 (u32ofLE b4 b5 b6 b7),
               reference := none, symbol := none } :: tail)
  | _ => .error "malformed-instruction"

/-! ## Theorems: names -/

/-- C1 counterexample: a 16-character name made only of `[A-Za-z0-9_]`
characters is accepted by `newBPFObjName` (no error is returned), refuting
the claim that overlong names fail with an invalid-name error. -/
theorem newBPFObjName_overlong_no_error :
    (newBPFObjName (List.replicate 16 'a')).2 = none := by decide

theorem find?_eq_none_of_all_invalid_false (name : List Char)
    (h : ∀ c ∈ name, invalidBPFObjNameChar c = false) :
    name.find? (fun c => invalidBPFObjNameChar c) = none := by
  induction name with
  | nil => rfl
  | cons a l ih =>
    have ha : invalidBPFObjNameChar a = false := h a (List.mem_cons_self a l)
    rw [List.find?_cons_of_neg _ (by simp [ha])]
    exact ih fun c hc => h c (List.mem_cons_of_mem a hc)

/-- C1, amended: overlong names whose characters are all in `[A-Za-z0-9_]`
are not rejected; `newBPFObjName` silently truncates them, copying only the
first 15 bytes into the 16-byte field (the remaining byte stays zero). -/
theorem newBPFObjName_overlong_truncates (name : List Char)
    (hvalid : ∀ c ∈ name, invalidBPFObjNameChar c = false)
    (hlong : 15 < name.length) :
    (newBPFObjName name).2 = none ∧
      (newBPFObjName name).1.bytes = (name.take 15).map charToByte ++ [0] := by
  have hfind := find?_eq_none_of_all_invalid_false name hvalid
  constructor
  · simp [newBPFObjName, hfind]
  · have htake : (name.map charToByte).take (bpfObjNameLen - 1)
        = (name.take 15).map charToByte := by
      simp [List.map_take, bpfObjNameLen]
    have hlen : ((name.map charToByte).take (bpfObjNameLen - 1)).length = 15 := by
      rw [List.length_take, List.length_map]
      simp only [bpfObjNameLen]
      omega
    simp only [newBPFObjName, hfind, mkObjNameBytes]
    rw [hlen, htake]
    norm_num [bpfObjNameLen]

/-- C1 amended witness at a concrete 16-character name. -/
theorem newBPFObjName_overlong_truncates_witness :
    (newBPFObjName (List.replicate 16 'a')).2 = none ∧
      (newBPFObjName (List.replicate 16 'a')).1.bytes
        = ((List.replicate 16 'a').take 15).map charToByte ++ [0] :=
  newBPFObjName_overlong_truncates (List.replicate 16 'a')
    (by decide) (by decide)

theorem find?_invalid_decomp (name : List Char) (c : Char) (hc : c ∈ name)
    (hinv : invalidBPFObjNameChar c = true) :
    ∃ pre c0 rest, name = pre ++ c0 :: rest ∧
      (∀ d ∈ pre, invalidBPFObjNameChar d = false) ∧
      invalidBPFObjNameChar c0 = true ∧
      name.find? (fun x => invalidBPFObjNameChar x) = some c0 := by
  induction name with
  | nil => cases hc
  | cons a l ih =>
    by_cases ha : invalidBPFObjNameChar a = true
    · exact ⟨[], a, l, rfl, by simp, ha, by
        rw [List.find?_cons_of_pos _ (by simpa using ha)]⟩
    · have ha' : invalidBPFObjNameChar a = false := by
        simpa using ha
      have hc' : c ∈ l := by
        rcases List.mem_cons.mp hc with h1 | h1
        · exact absurd hinv (by rw [h1, ha']; decide)
        · exact h1
      obtain ⟨pre, c0, rest, he, hpre, hc0, hfind⟩ := ih hc'
      refine ⟨a :: pre, c0, rest, by rw [he]; rfl, ?_, hc0, ?_⟩
      · intro d hd
        rcases List.mem_cons.mp hd with h1 | h1
        · rw [h1]; exact ha'
        · exact hpre d h1
      · rw [List.find?_cons_of_neg _ (by simp [ha'])]
        exact hfind

/-- C2: `newBPFObjName` accepts every name whose characters all lie in
`[A-Za-z0-9_]` (no error), and for every name containing a character outside
that set it returns the zero name together with an error identifying the
first offending character. -/
theorem newBPFObjName_char_validation (name : List Char) :
    ((∀ c ∈ name, invalidBPFObjNameChar c = false) →
      (newBPFObjName name).2 = none) ∧
    (∀ c ∈ name, invalidBPFObjNameChar c = true →
      ∃ pre c0 rest, name = pre ++ c0 :: rest ∧
        (∀ d ∈ pre, invalidBPFObjNameChar d = false) ∧
        invalidBPFObjNameChar c0 = true ∧
        newBPFObjName name = (bpfObjName.zero, some c0)) := by
  constructor
  · intro h
    simp [newBPFObjName, find?_eq_none_of_all_invalid_false name h]
  · intro c hc hinv
    obtain ⟨pre, c0, rest, he, hpre, hc0, hfind⟩ :=
      find?_invalid_decomp name c hc hinv
    exact ⟨pre, c0, rest, he, hpre, hc0, by simp [newBPFObjName, hfind]⟩

/-- C2 witness: a valid name is accepted; a name containing `-` is rejected
with the offending character, applying the theorem at concrete inputs. -/
theorem newBPFObjName_char_validation_witness :
    (newBPFObjName ['a', 'b']).2 = none ∧
    (∃ pre c0 rest, (['a', '-', 'b'] : List Char) = pre ++ c0 :: rest ∧
      (∀ d ∈ pre, invalidBPFObjNameChar d = false) ∧
      invalidBPFObjNameChar c0 = true ∧
      newBPFObjName ['a', '-', 'b'] = (bpfObjName.zero, some c0)) :=
  ⟨(newBPFObjName_char_validation ['a', 'b']).1 (by decide),
   (newBPFObjName_char_validation ['a', '-', 'b']).2 '-' (by decide) (by decide)⟩

/-- C9: for every accepted name (all characters in `[A-Za-z0-9_]`) the
returned 16-byte name has byte 15 equal to zero (always NUL-terminated), and
only the first 15 characters of the input determine the result: inputs longer
than 15 characters are silently truncated, not rejected. -/
theorem newBPFObjName_nul_terminated (name : List Char)
    (h : ∀ c ∈ name, invalidBPFObjNameChar c = false) :
    (newBPFObjName name).2 = none ∧
    (newBPFObjName name).1.bytes.length = 16 ∧
    (newBPFObjName name).1.bytes[15]? = some 0 ∧
    (newBPFObjName name).1 = (newBPFObjName (name.take 15)).1 := by
  have hfind := find?_eq_none_of_all_invalid_false name h
  have hfind' : (name.take 15).find? (fun x => invalidBPFObjNameChar x) = none :=
    find?_eq_none_of_all_invalid_false _ fun c hc => h c (List.mem_of_mem_take hc)
  have hL : ((name.map charToByte).take (bpfObjNameLen - 1)).length ≤ 15 := by
    rw [List.length_take, List.length_map]
    simp [bpfObjNameLen]
  have hlen : (mkObjNameBytes name).length = 16 := by
    simp only [mkObjNameBytes, List.length_append, List.length_replicate]
    simp only [bpfObjNameLen] at hL ⊢
    omega
  refine ⟨by simp [newBPFObjName, hfind], ?_, ?_, ?_⟩
  · simp [newBPFObjName, hfind, hlen]
  · simp only [newBPFObjName, hfind]
    show (mkObjNameBytes name)[15]? = some 0
    simp only [mkObjNameBytes]
    rw [List.getElem?_append_right hL]
    rw [List.getElem?_replicate]
    simp only [bpfObjNameLen] at hL ⊢
    rw [if_pos (by omega)]
  · simp only [newBPFObjName, hfind, hfind']
    have hcopy : (name.map charToByte).take (bpfObjNameLen - 1)
        = ((name.take 15).map charToByte).take (bpfObjNameLen - 1) := by
      rw [← List.map_take, ← List.map_take, List.take_take]
      simp [bpfObjNameLen]
    simp [mkObjNameBytes, hcopy]

/-- C9 witness: a concrete 20-character valid name is accepted, 16 bytes long,
NUL at index 15, and equal to the name built from its first 15 characters. -/
theorem newBPFObjName_nul_terminated_witness :
    (newBPFObjName (List.replicate 20 'x')).2 = none ∧
    (newBPFObjName (List.replicate 20 'x')).1.bytes.length = 16 ∧
    (newBPFObjName (List.replicate 20 'x')).1.bytes[15]? = some 0 ∧
    (newBPFObjName (List.replicate 20 'x')).1
      = (newBPFObjName ((List.replicate 20 'x').take 15)).1 :=
  newBPFObjName_nul_terminated (List.replicate 20 'x') (by decide)

/-! ## Theorems: codec -/

/-- The byte stream of the `Test64bitImmediate` test. -/
def imm64SampleBytes : List Nat :=
  [0x18, 0x01, 0x00, 0x00, 0xff, 0xff, 0xff, 0x7f,
   0x00, 0x00, 0x00, 0x00, 0xff, 0xff, 0xff, 0xff]

/-- The single logical instruction that stream decodes to. -/
def imm64SampleIns : Instruction :=
  { opCode := 0x18, dstReg := 1, srcReg := 0, offset := 0,
    constant := -2147483649, reference := none, symbol := none }

/-- C3: decoding the 16-byte little-endian stream
`18 01 00 00 FF FF FF 7F 00 00 00 00 FF FF FF FF` yields exactly one logical
instruction, and its signed 64-bit constant is `-2^31 - 1` (low 32 bits from
the first slot's immediate, high 32 bits from the pseudo slot's immediate). -/
theorem loadInstructions_imm64_sample :
    loadInstructions imm64SampleBytes = .ok [imm64SampleIns] ∧
    imm64SampleIns.constant = -(2 ^ 31) - 1 := by
  constructor
  · rfl
  · decide

/-! ## Encoding and the program-load attribute (`prog.go`, `syscalls.go`)

The encoder (`asm.Instructions.Marshal`) is not in the snapshot; it is
modelled from spec §4.1 (one 8-byte slot per logical instruction, two for a
64-bit immediate load, host byte order taken little-endian) and §3's
invariant that an unresolved pseudo-call at submission time is fatal. -/

/-- `asm.InstructionSize`: 8 bytes per wire slot. -/
def InstructionSize : Nat := 8

/-- Four little-endian bytes of an unsigned 32-bit value. -/
def natToLE4 (n : Nat) : List Nat :=
  [n % 256, n / 256 % 256, n / 65536 % 256, n / 16777216 % 256]

/-- Two little-endian bytes of a signed 16-bit value. -/
def int16LE (i : Int) : List Nat :=
  [(i.emod 65536).toNat % 256, (i.emod 65536).toNat / 256 % 256]

/-- The register byte: destination in the low nibble, source in the high. -/
def regsByte (i : Instruction) : Nat := i.dstReg % 16 + 16 * (i.srcReg % 16)

/-- Modelled from the spec: the wire bytes of one logical instruction
(§4.1 encoding).  A 64-bit immediate load emits two slots: low half of the
constant in the first slot's immediate, a zero-opcode pseudo slot with the
high half in the second. -/
def Instruction.marshal (i : Instruction) : List Nat :=
  let c64 := (i.constant.emod (2 ^ 64)).toNat
  if i.opCode = ldDWImm then
    [i.opCode % 256, regsByte i] ++ int16LE i.offset ++ natToLE4 (c64 % 2 ^ 32)
      ++ [0, 0, 0, 0] ++ natToLE4 (c64 / 2 ^ 32)
  else
    [i.opCode % 256, regsByte i] ++ int16LE i.offset ++ natToLE4 (c64 % 2 ^ 32)

/-- A pseudo-call (call with the distinguished source-register marker) whose
reference label is still unresolved (§3 invariant). -/
def Instruction.isUnresolvedPseudoCall (i : Instruction) : Bool :=
  i.opCode = callOp && i.srcReg = 1 && i.reference.isSome

/-- Modelled from the spec: `asm.Instructions.Marshal` — emit the wire bytes
of a sequence, failing on an unresolved pseudo-call (§3 invariant, §8
scenario 6: such a sequence fails before any syscall). -/
def marshalInstructions : List Instruction → Except String (List Nat)
  | [] => .ok []
  | i :: rest =>
    if i.isUnresolvedPseudoCall then .error "undefined-symbol"
    else
      match marshalInstructions rest with
      | .error e => .error e
      | .ok bs => .ok (i.marshal ++ bs)

/-- `ProgramSpec` from prog.go. -/
structure ProgramSpec where
  name : List Char
  progType : Nat
  instructions : List Instruction
  license : String
  kernelVersion : Nat
deriving DecidableEq, Repr

/-- `bpfProgLoadAttr` from syscalls.go.  Pointer fields are modelled by their
pointees: `instructions` by the marshaled bytecode, `logBuf` by the length of
the caller-allocated log buffer (0 when nil). -/
structure bpfProgLoadAttr where
  progType : Nat
  insCount : Nat
  instructions : List Nat
  license : String
  logLevel : Nat
  logSize : Nat
  logBuf : Nat
  kernelVersion : Nat
  progFlags : Nat
  progName : bpfObjName
  progIfIndex : Nat
  expectedAttachType : Nat
deriving DecidableEq, Repr

/-- `convertProgramSpec` from prog.go: marshal the instructions, set the
instruction count to the byte length divided by the slot size, then validate
the name and attach it when the kernel supports names. -/
def convertProgramSpec (spec : ProgramSpec) (includeName : Bool) :
    Except String bpfProgLoadAttr :=
  match marshalInstructions spec.instructions with
  | .error e => .error e
  | .ok bytecode =>
    let attr : bpfProgLoadAttr :=
      { progType := spec.progType,
        insCount := bytecode.length / InstructionSize,
        instructions := bytecode, license := spec.license,
        logLevel := 0, logSize := 0, logBuf := 0,
        kernelVersion := 0, progFlags := 0, progName := bpfObjName.zero,
        progIfIndex := 0, expectedAttachType := 0 }
    match newBPFObjName spec.name with
    | (_, some _) => .error "invalid character in name"
    | (name, none) =>
      .ok (if includeName then { attr with progName := name } else attr)

/-! ## Syscall submission model (`syscalls.go`, `prog.go`) -/

/-- `syscall.EAGAIN` on Linux. -/
def EAGAIN : Nat := 11

/-- `syscall.ENOSPC` on Linux. -/
def ENOSPC : Nat := 28

/-- One kernel answer to a program-load submission: the returned fd, the
errno (`none` for success) and the bytes the verifier writes into the
caller's log buffer, when one was supplied. -/
structure KernelResp where
  fd : Nat
  errno : Option Nat
  log : List Nat
deriving DecidableEq, Repr

/-- `bpfProgLoad` from syscalls.go: re-submit while the kernel answers
EAGAIN.  The kernel is modelled by the (finite prefix of the) sequence of its
answers; `none` models the loop never returning because every answer was
EAGAIN.  On return it also yields the un-consumed answers. -/
def bpfProgLoad : List KernelResp → Option (KernelResp × List KernelResp)
  | [] => none
  | r :: rest => if r.errno = some EAGAIN then bpfProgLoad rest else some (r, rest)

/-- `DefaultVerifierLogSize` from prog.go: 64 KiB. -/
def DefaultVerifierLogSize : Nat := 64 * 1024

/-- `convertCString` from syscalls.go: the bytes before the first NUL, or
empty when there is no NUL. -/
def convertCString (input : List Nat) : List Nat :=
  if input.contains 0 then input.takeWhile (fun b => b ≠ 0) else []

/-- Contents of a `size`-byte zeroed buffer after the kernel writes `log`
into it (truncated to the buffer). -/
def bufferAfterWrite (size : Nat) (log : List Nat) : List Nat :=
  log.take size ++ List.replicate (size - (log.take size).length) 0

/-- The retry attribute of `NewProgram`: verifier log level 1 and a fresh
64 KiB caller-allocated log buffer. -/
def withVerifierLog (attr : bpfProgLoadAttr) : bpfProgLoadAttr :=
  { attr with logLevel := 1, logSize := DefaultVerifierLogSize, logBuf := DefaultVerifierLogSize }

/-- `Program` from prog.go (fd, name, ABI program type). -/
structure Program where
  fd : Nat
  name : List Char
  progType : Nat
deriving DecidableEq, Repr

/-- The observable outcome of `NewProgram`: either a `Program` or one of its
error returns. -/
inductive LoadResult where
  | ok (p : Program)
  | emptyInstructions
  | convertError (msg : String)
  | noDebug (cause : Nat)
  | loadErr (cause : Option Nat) (verifierLog : List Nat)
  | hang
deriving DecidableEq, Repr

/-- Result of a `NewProgram` run together with the load attributes submitted
(one entry per `bpfProgLoad` call) and the kernel answers left unconsumed. -/
structure LoadOutcome where
  result : LoadResult
  submissions : List bpfProgLoadAttr
  remaining : List KernelResp
deriving DecidableEq, Repr

/-- `NewProgram` from prog.go.  Rejects an empty instruction sequence, builds
the load attribute, submits; on failure re-submits once with log level 1 and
a fresh 64 KiB log buffer, returning `noDebug` when the retry's cause is
ENOSPC and otherwise a `loadError` holding the retry's error and the
NUL-terminated log text. -/
def NewProgram (spec : ProgramSpec) (includeName : Bool)
    (responses : List KernelResp) : LoadOutcome :=
  if spec.instructions.length = 0 then
    ⟨.emptyInstructions, [], responses⟩
  else
    match convertProgramSpec spec includeName with
    | .error e => ⟨.convertError e, [], responses⟩
    | .ok attr =>
      match bpfProgLoad responses with
      | none => ⟨.hang, [attr], []⟩
      | some (r, rest) =>
        match r.errno with
        | none => ⟨.ok ⟨r.fd, spec.name, spec.progType⟩, [attr], rest⟩
        | some e =>
          let attr2 : bpfProgLoadAttr := withVerifierLog attr
          match bpfProgLoad rest with
          | none => ⟨.hang, [attr, attr2], []⟩
          | some (r2, rest2) =>
            if r2.errno = some ENOSPC then
              ⟨.noDebug e, [attr, attr2], rest2⟩
            else
              ⟨.loadErr r2.errno
                 (convertCString (bufferAfterWrite DefaultVerifierLogSize r2.log)),
               [attr, attr2], rest2⟩

/-! ## Theorems: program load -/

/-- C5: `bpfProgLoad` re-submits exactly while the kernel answers EAGAIN and
returns the first answer that is anything else (success included); when it
returns, every skipped answer was EAGAIN, and it loops forever only when
every answer is EAGAIN — no other error is retried at this layer. -/
theorem bpfProgLoad_retries_eagain_only (responses : List KernelResp) :
    (∀ r rest, bpfProgLoad responses = some (r, rest) →
      r.errno ≠ some EAGAIN ∧
      ∃ pre, responses = pre ++ r :: rest ∧ ∀ p ∈ pre, p.errno = some EAGAIN) ∧
    (bpfProgLoad responses = none → ∀ r ∈ responses, r.errno = some EAGAIN) := by
  induction responses with
  | nil =>
    refine ⟨fun r rest h => ?_, fun _ r hr => absurd hr (List.not_mem_nil r)⟩
    simp [bpfProgLoad] at h
  | cons a l ih =>
    by_cases ha : a.errno = some EAGAIN
    · constructor
      · intro r rest h
        simp only [bpfProgLoad, if_pos ha] at h
        obtain ⟨hne, pre, hpre, hall⟩ := ih.1 r rest h
        refine ⟨hne, a :: pre, by rw [hpre]; rfl, ?_⟩
        intro p hp
        rcases List.mem_cons.mp hp with h1 | h1
        · rw [h1]; exact ha
        · exact hall p h1
      · intro h r hr
        simp only [bpfProgLoad, if_pos ha] at h
        rcases List.mem_cons.mp hr with h1 | h1
        · rw [h1]; exact ha
        · exact ih.2 h r h1
    · constructor
      · intro r rest h
        simp only [bpfProgLoad, if_neg ha, Option.some.injEq, Prod.mk.injEq] at h
        obtain ⟨rfl, rfl⟩ := h
        exact ⟨ha, [], rfl, by simp⟩
      · intro h
        simp [bpfProgLoad, if_neg ha] at h

/-- C5 witness: with answers [EAGAIN, EACCES] the load returns the EACCES
answer, having skipped only EAGAIN answers. -/
theorem bpfProgLoad_retries_eagain_only_witness :
    (⟨7, some 13, []⟩ : KernelResp).errno ≠ some EAGAIN ∧
    ∃ pre, [(⟨0, some EAGAIN, []⟩ : KernelResp), ⟨7, some 13, []⟩]
        = pre ++ (⟨7, some 13, []⟩ : KernelResp) :: [] ∧
      ∀ p ∈ pre, p.errno = some EAGAIN :=
  (bpfProgLoad_retries_eagain_only
      [⟨0, some EAGAIN, []⟩, ⟨7, some 13, []⟩]).1
    ⟨7, some 13, []⟩ [] (by decide)

/-- C10: for an empty instruction sequence `NewProgram` fails immediately
("instructions cannot be empty"): no load attribute is submitted, no kernel
answer is consumed, and no program object is produced. -/
theorem newProgram_empty_instructions (spec : ProgramSpec) (includeName : Bool)
    (responses : List KernelResp) (h : spec.instructions = []) :
    NewProgram spec includeName responses
      = ⟨.emptyInstructions, [], responses⟩ := by
  simp [NewProgram, h]

/-- C10 witness at a concrete empty specification. -/
theorem newProgram_empty_instructions_witness :
    NewProgram ⟨[], 0, [], "", 0⟩ true [⟨5, none, []⟩]
      = ⟨.emptyInstructions, [], [⟨5, none, []⟩]⟩ :=
  newProgram_empty_instructions ⟨[], 0, [], "", 0⟩ true [⟨5, none, []⟩] rfl

theorem Instruction.marshal_length (i : Instruction) :
    i.marshal.length = 8 * i.slots := by
  by_cases h : i.opCode = ldDWImm <;>
    simp [Instruction.marshal, Instruction.slots, h, natToLE4, int16LE, regsByte]

theorem marshalInstructions_length (insns : List Instruction) (bs : List Nat)
    (h : marshalInstructions insns = .ok bs) : bs.length = 8 * wireLen insns := by
  induction insns generalizing bs with
  | nil =>
    simp only [marshalInstructions, Except.ok.injEq] at h
    rw [← h]
    simp [wireLen]
  | cons i rest ih =>
    simp only [marshalInstructions] at h
    by_cases hp : i.isUnresolvedPseudoCall
    · rw [if_pos hp] at h
      cases h
    · rw [if_neg hp] at h
      cases hrec : marshalInstructions rest with
      | error e => rw [hrec] at h; cases h
      | ok bs2 =>
        rw [hrec] at h
        simp only [Except.ok.injEq] at h
        rw [← h, List.length_append, Instruction.marshal_length, ih bs2 hrec]
        simp [wireLen, Nat.mul_add]

/-- C6: whenever the instructions marshal successfully, the instruction count
placed in the program-load attribute is the wire-slot count of the sequence —
the marshaled byte length divided by the 8-byte slot size, which equals the
sum of the logical instructions' slot counts — not the logical length. -/
theorem convertProgramSpec_insCount (spec : ProgramSpec) (includeName : Bool)
    (attr : bpfProgLoadAttr)
    (h : convertProgramSpec spec includeName = .ok attr) :
    attr.insCount = wireLen spec.instructions := by
  simp only [convertProgramSpec] at h
  cases hm : marshalInstructions spec.instructions with
  | error e => rw [hm] at h; cases h
  | ok bytecode =>
    rw [hm] at h
    rcases hn : newBPFObjName spec.name with ⟨nm, err⟩
    rw [hn] at h
    cases err with
    | some c => cases h
    | none =>
      simp only [Except.ok.injEq] at h
      have hc : attr.insCount = bytecode.length / InstructionSize := by
        rw [← h]
        by_cases hb : includeName <;> simp [hb]
      rw [hc, marshalInstructions_length spec.instructions bytecode hm,
        InstructionSize]
      omega

/-- A concrete 64-bit immediate load, `BPFILdImm64(Reg0, 1337)` without labels. -/
def sampleLdImm : Instruction := ⟨0x18, 0, 0, 0, 1337, none, none⟩

/-- A concrete exit instruction, `BPFIOp(Exit)`. -/
def sampleExit : Instruction := ⟨0x95, 0, 0, 0, 0, none, none⟩

/-- A concrete program spec: XDP, `[ld_imm64 r0 1337; exit]`, license MIT. -/
def sampleSpec : ProgramSpec := ⟨['p'], 6, [sampleLdImm, sampleExit], "MIT", 0⟩

/-- The load attribute `convertProgramSpec` builds for `sampleSpec`. -/
def sampleAttr : bpfProgLoadAttr :=
  { progType := 6, insCount := 3,
    instructions := [24, 0, 0, 0, 57, 5, 0, 0, 0, 0, 0, 0, 0, 0, 0, 0,
                     149, 0, 0, 0, 0, 0, 0, 0],
    license := "MIT", logLevel := 0, logSize := 0, logBuf := 0,
    kernelVersion := 0, progFlags := 0,
    progName := ⟨[112, 0, 0, 0, 0, 0, 0, 0, 0, 0, 0, 0, 0, 0, 0, 0]⟩,
    progIfIndex := 0, expectedAttachType := 0 }

/-- C6 witness: the sample spec (one two-slot load plus one exit) gets
instruction count 3, its wire-slot count, not its logical length 2. -/
theorem convertProgramSpec_insCount_witness :
    sampleAttr.insCount = wireLen sampleSpec.instructions :=
  convertProgramSpec_insCount sampleSpec true sampleAttr (by rfl)

/-- C4 counterexample: with the first submission failing with EACCES (13) and
the retry answered with ENOSPC, `NewProgram` returns the "no debug since
LogSize too small" wrap of the original error — a result that carries no
verifier log text — refuting the claim that the returned error always carries
the log as an auxiliary string. -/
theorem newProgram_enospc_no_log :
    (NewProgram sampleSpec true
        [⟨0, some 13, []⟩, ⟨0, some ENOSPC, [104]⟩]).result
      = .noDebug 13 := by rfl

/-- C4, amended: when the initial submission fails, `NewProgram` submits
exactly one retry, whose attribute has verifier log level 1 and a
caller-allocated 64 KiB log buffer; unless the retry's cause is ENOSPC (then
the error only notes the log size was too small), the returned error is a
load error carrying the retry's root-cause error together with the
NUL-terminated verifier log text read from that buffer. -/
theorem newProgram_retry_with_log (spec : ProgramSpec) (includeName : Bool)
    (responses : List KernelResp) (attr : bpfProgLoadAttr)
    (r r2 : KernelResp) (rest rest2 : List KernelResp) (e : Nat)
    (hne : spec.instructions.length ≠ 0)
    (hconv : convertProgramSpec spec includeName = .ok attr)
    (h1 : bpfProgLoad responses = some (r, rest))
    (herr : r.errno = some e)
    (h2 : bpfProgLoad rest = some (r2, rest2)) :
    (NewProgram spec includeName responses).submissions
      = [attr, withVerifierLog attr] ∧
    DefaultVerifierLogSize = 64 * 1024 ∧
    (r2.errno ≠ some ENOSPC →
      (NewProgram spec includeName responses).result
        = .loadErr r2.errno
            (convertCString (bufferAfterWrite DefaultVerifierLogSize r2.log))) ∧
    (r2.errno = some ENOSPC →
      (NewProgram spec includeName responses).result = .noDebug e) := by
  have hn : NewProgram spec includeName responses =
      if r2.errno = some ENOSPC then
        ⟨.noDebug e, [attr, withVerifierLog attr], rest2⟩
      else
        ⟨.loadErr r2.errno
            (convertCString (bufferAfterWrite DefaultVerifierLogSize r2.log)),
         [attr, withVerifierLog attr], rest2⟩ := by
    simp only [NewProgram, if_neg hne, hconv, h1, herr, h2]
  refine ⟨?_, rfl, ?_, ?_⟩
  · rw [hn]
    by_cases hns : r2.errno = some ENOSPC
    · rw [if_pos hns]
    · rw [if_neg hns]
  · intro hns
    rw [hn, if_neg hns]
  · intro hns
    rw [hn, if_pos hns]

/-- C4 amended witness: concrete failing load (EACCES) retried once with the
64 KiB log buffer; the retry fails with EINVAL (22) and wrote "hi" to the
log, which the returned load error carries. -/
theorem newProgram_retry_with_log_witness :
    (NewProgram sampleSpec true
        [⟨0, some 13, []⟩, ⟨0, some 22, [104, 105]⟩]).submissions
      = [sampleAttr, withVerifierLog sampleAttr] ∧
    DefaultVerifierLogSize = 64 * 1024 ∧
    ((⟨0, some 22, [104, 105]⟩ : KernelResp).errno ≠ some ENOSPC →
      (NewProgram sampleSpec true
          [⟨0, some 13, []⟩, ⟨0, some 22, [104, 105]⟩]).result
        = .loadErr ((⟨0, some 22, [104, 105]⟩ : KernelResp).errno
            ) (convertCString (bufferAfterWrite DefaultVerifierLogSize
              (⟨0, some 22, [104, 105]⟩ : KernelResp).log))) ∧
    ((⟨0, some 22, [104, 105]⟩ : KernelResp).errno = some ENOSPC →
      (NewProgram sampleSpec true
          [⟨0, some 13, []⟩, ⟨0, some 22, [104, 105]⟩]).result
        = .noDebug 13) :=
  newProgram_retry_with_log sampleSpec true
    [⟨0, some 13, []⟩, ⟨0, some 22, [104, 105]⟩] sampleAttr
    ⟨0, some 13, []⟩ ⟨0, some 22, [104, 105]⟩
    [⟨0, some 22, [104, 105]⟩] [] 13
    (by decide) (by rfl) (by rfl) (by rfl) (by rfl)

/-! ## Editor link (modelled from the spec §4.3)

The editor is not in the snapshot (only its tests are).  §4.3 item 3: in a
single left-to-right scan of the primary sequence, each call instruction
whose reference label matches the symbol label of a library instruction gets
the sub-program (symbol-bearing instruction through the first subsequent
exit) appended once, and its immediate patched to the signed wire-slot
distance from the slot after the call to the first appended slot; repeated
call sites share the single appended copy, unresolved references stay
untouched. -/

/-- Instructions up to and including the first exit. -/
def takeThroughExit : List Instruction → List Instruction
  | [] => []
  | i :: rest => if i.opCode = exitOp then [i] else i :: takeThroughExit rest

/-- Modelled from the spec: the sub-program of the library named `s` — from
the instruction whose symbol label is `s` through the first subsequent
exit (§4.3 item 3); `none` when no library instruction carries the symbol. -/
def subprogram (s : String) : List Instruction → Option (List Instruction)
  | [] => none
  | i :: rest =>
    if i.symbol = some s then some (takeThroughExit (i :: rest))
    else subprogram s rest

/-- Offsets (in wire slots of the final sequence) at which already-appended
sub-programs start, per symbol. -/
def lookupSym : List (String × Nat) → String → Option Nat
  | [], _ => none
  | (t, m) :: rest, s => if t = s then some m else lookupSym rest s

/-- Patch a resolved call at wire slot `k` whose target starts at wire slot
`m`: immediate becomes the signed distance from the slot after the call, and
the reference label is cleared. -/
def patchCall (i : Instruction) (m k : Nat) : Instruction :=
  { i with constant := (m : Int) - ((k : Int) + 1), reference := none }

/-- Modelled from the spec: the linking scan.  `P` is the wire length of the
whole primary sequence (patching preserves slot counts, so appended copies
start at `P` plus the wire length of the copies appended before them).
Returns the patched primary and the appended tail. -/
def linkAux (lib : List Instruction) (P : Nat) :
    List Instruction → Nat → List Instruction → List (String × Nat) →
    List Instruction × List Instruction
  | [], _, appended, _ => ([], appended)
  | i :: rest, k, appended, table =>
    match i.reference with
    | none =>
      let r := linkAux lib P rest (k + i.slots) appended table
      (i :: r.1, r.2)
    | some s =>
      if i.opCode = callOp then
        match lookupSym table s with
        | some m =>
          let r := linkAux lib P rest (k + i.slots) appended table
          (patchCall i m k :: r.1, r.2)
        | none =>
          match subprogram s lib with
          | some sub =>
            let r := linkAux lib P rest (k + i.slots) (appended ++ sub)
              ((s, P + wireLen appended) :: table)
            (patchCall i (P + wireLen appended) k :: r.1, r.2)
          | none =>
            let r := linkAux lib P rest (k + i.slots) appended table
            (i :: r.1, r.2)
      else
        let r := linkAux lib P rest (k + i.slots) appended table
        (i :: r.1, r.2)

/-- Modelled from the spec: `Editor.Link` — patched primary followed by the
appended sub-program copies. -/
def link (primary lib : List Instruction) : List Instruction :=
  let r := linkAux lib (wireLen primary) primary 0 [] []
  r.1 ++ r.2

theorem wireLen_cons (i : Instruction) (l : List Instruction) :
    wireLen (i :: l) = i.slots + wireLen l := by
  simp [wireLen]

theorem patchCall_slots (i : Instruction) (m k : Nat) :
    (patchCall i m k).slots = i.slots := rfl

theorem linkAux_fst_length (lib : List Instruction) (P : Nat)
    (rem : List Instruction) (k : Nat) (appended : List Instruction)
    (table : List (String × Nat)) :
    (linkAux lib P rem k appended table).1.length = rem.length := by
  induction rem generalizing k appended table with
  | nil => rfl
  | cons i rest ih =>
    simp only [linkAux]
    cases href : i.reference with
    | none => simpa using ih (k + i.slots) appended table
    | some s =>
      by_cases hc : i.opCode = callOp
      · cases hl : lookupSym table s with
        | some m => simpa [hc, hl] using ih (k + i.slots) appended table
        | none =>
          cases hsub : subprogram s lib with
          | some sub =>
            simpa [hc, hl, hsub] using ih (k + i.slots) (appended ++ sub)
              ((s, P + wireLen appended) :: table)
          | none => simpa [hc, hl, hsub] using ih (k + i.slots) appended table
      · simpa [hc] using ih (k + i.slots) appended table

theorem linkAux_fst_wireLen (lib : List Instruction) (P : Nat)
    (rem : List Instruction) (k : Nat) (appended : List Instruction)
    (table : List (String × Nat)) :
    wireLen (linkAux lib P rem k appended table).1 = wireLen rem := by
  induction rem generalizing k appended table with
  | nil => rfl
  | cons i rest ih =>
    simp only [linkAux]
    cases href : i.reference with
    | none =>
      simpa [wireLen_cons] using ih (k + i.slots) appended table
    | some s =>
      by_cases hc : i.opCode = callOp
      · cases hl : lookupSym table s with
        | some m =>
          simpa [hc, hl, wireLen_cons, patchCall_slots]
            using ih (k + i.slots) appended table
        | none =>
          cases hsub : subprogram s lib with
          | some sub =>
            simpa [hc, hl, hsub, wireLen_cons, patchCall_slots]
              using ih (k + i.slots) (appended ++ sub)
                ((s, P + wireLen appended) :: table)
          | none =>
            simpa [hc, hl, hsub, wireLen_cons]
              using ih (k + i.slots) appended table
      · simpa [hc, wireLen_cons] using ih (k + i.slots) appended table

theorem linkAux_snd_extend (lib : List Instruction) (P : Nat)
    (rem : List Instruction) (k : Nat) (appended : List Instruction)
    (table : List (String × Nat)) :
    ∃ ext, (linkAux lib P rem k appended table).2 = appended ++ ext := by
  induction rem generalizing k appended table with
  | nil => exact ⟨[], by simp [linkAux]⟩
  | cons i rest ih =>
    simp only [linkAux]
    cases href : i.reference with
    | none => simpa using ih (k + i.slots) appended table
    | some s =>
      by_cases hc : i.opCode = callOp
      · cases hl : lookupSym table s with
        | some m => simpa [hc, hl] using ih (k + i.slots) appended table
        | none =>
          cases hsub : subprogram s lib with
          | some sub =>
            obtain ⟨ext, hext⟩ := ih (k + i.slots) (appended ++ sub)
              ((s, P + wireLen appended) :: table)
            refine ⟨sub ++ ext, ?_⟩
            simp [hc, hl, hsub, hext, List.append_assoc]
          | none => simpa [hc, hl, hsub] using ih (k + i.slots) appended table
      · simpa [hc] using ih (k + i.slots) appended table

theorem wireLen_append (a b : List Instruction) :
    wireLen (a ++ b) = wireLen a + wireLen b := by
  simp [wireLen]

theorem wireLen_take_succ (i0 : Instruction) (rest : List Instruction) (j : Nat) :
    wireLen ((i0 :: rest).take (j + 1)) = i0.slots + wireLen (rest.take j) := by
  simp [List.take_succ_cons, wireLen_cons]

/-- Invariant of the linking scan: every offset recorded in the table points
at a copy of the corresponding sub-program inside the appended tail, `P` slots
after the front of the final sequence. -/
def tableOk (lib : List Instruction) (P : Nat) (appended : List Instruction)
    (table : List (String × Nat)) : Prop :=
  ∀ s m, lookupSym table s = some m →
    ∃ pre sub post, appended = pre ++ sub ++ post ∧
      subprogram s lib = some sub ∧ m = P + wireLen pre

theorem linkAux_patches (lib : List Instruction) (P : Nat)
    (rem : List Instruction) (k : Nat) (appended : List Instruction)
    (table : List (String × Nat)) (hInv : tableOk lib P appended table)
    (j : Nat) (i : Instruction) (s : String) (sub : List Instruction)
    (hj : rem[j]? = some i) (hcall : i.opCode = callOp)
    (href : i.reference = some s) (hsub : subprogram s lib = some sub) :
    ∃ m pre post,
      (linkAux lib P rem k appended table).1[j]?
        = some (patchCall i m (k + wireLen (rem.take j))) ∧
      (linkAux lib P rem k appended table).2 = pre ++ sub ++ post ∧
      m = P + wireLen pre := by
  induction rem generalizing j k appended table with
  | nil => simp at hj
  | cons i0 rest ih =>
    cases j with
    | zero =>
      simp only [List.getElem?_cons_zero, Option.some.injEq] at hj
      subst hj
      cases hl : lookupSym table s with
      | some m0 =>
        obtain ⟨pre, sub', post, happ, hsub', hm⟩ := hInv s m0 hl
        rw [hsub] at hsub'
        injection hsub' with hsub''
        subst hsub''
        have hstep1 : (linkAux lib P (i0 :: rest) k appended table).1
            = patchCall i0 m0 k
              :: (linkAux lib P rest (k + i0.slots) appended table).1 := by
          simp [linkAux, href, hcall, hl]
        have hstep2 : (linkAux lib P (i0 :: rest) k appended table).2
            = (linkAux lib P rest (k + i0.slots) appended table).2 := by
          simp [linkAux, href, hcall, hl]
        obtain ⟨ext, hext⟩ :=
          linkAux_snd_extend lib P rest (k + i0.slots) appended table
        refine ⟨m0, pre, post ++ ext, ?_, ?_, hm⟩
        · rw [hstep1, List.getElem?_cons_zero]
          simp [wireLen]
        · rw [hstep2, hext, happ]
          simp [List.append_assoc]
      | none =>
        have hstep1 : (linkAux lib P (i0 :: rest) k appended table).1
            = patchCall i0 (P + wireLen appended) k
              :: (linkAux lib P rest (k + i0.slots) (appended ++ sub)
                    ((s, P + wireLen appended) :: table)).1 := by
          simp [linkAux, href, hcall, hl, hsub]
        have hstep2 : (linkAux lib P (i0 :: rest) k appended table).2
            = (linkAux lib P rest (k + i0.slots) (appended ++ sub)
                 ((s, P + wireLen appended) :: table)).2 := by
          simp [linkAux, href, hcall, hl, hsub]
        obtain ⟨ext, hext⟩ := linkAux_snd_extend lib P rest (k + i0.slots)
          (appended ++ sub) ((s, P + wireLen appended) :: table)
        refine ⟨P + wireLen appended, appended, ext, ?_, ?_, rfl⟩
        · rw [hstep1]
          simp [wireLen]
        · rw [hstep2]
          exact hext
    | succ j2 =>
      simp only [List.getElem?_cons_succ] at hj
      cases href0 : i0.reference with
      | none =>
        obtain ⟨m, pre, post, h1, h2, h3⟩ :=
          ih (k + i0.slots) appended table hInv j2 hj
        have hstep1 : (linkAux lib P (i0 :: rest) k appended table).1
            = i0 :: (linkAux lib P rest (k + i0.slots) appended table).1 := by
          simp [linkAux, href0]
        have hstep2 : (linkAux lib P (i0 :: rest) k appended table).2
            = (linkAux lib P rest (k + i0.slots) appended table).2 := by
          simp [linkAux, href0]
        refine ⟨m, pre, post, ?_, ?_, h3⟩
        · rw [hstep1, List.getElem?_cons_succ, wireLen_take_succ,
            ← Nat.add_assoc]
          exact h1
        · rw [hstep2]
          exact h2
      | some s0 =>
        by_cases hc0 : i0.opCode = callOp
        · cases hl0 : lookupSym table s0 with
          | some m0 =>
            obtain ⟨m, pre, post, h1, h2, h3⟩ :=
              ih (k + i0.slots) appended table hInv j2 hj
            have hstep1 : (linkAux lib P (i0 :: rest) k appended table).1
                = patchCall i0 m0 k
                  :: (linkAux lib P rest (k + i0.slots) appended table).1 := by
              simp [linkAux, href0, hc0, hl0]
            have hstep2 : (linkAux lib P (i0 :: rest) k appended table).2
                = (linkAux lib P rest (k + i0.slots) appended table).2 := by
              simp [linkAux, href0, hc0, hl0]
            refine ⟨m, pre, post, ?_, ?_, h3⟩
            · rw [hstep1, List.getElem?_cons_succ, wireLen_take_succ,
                ← Nat.add_assoc]
              exact h1
            · rw [hstep2]
              exact h2
          | none =>
            cases hsub0 : subprogram s0 lib with
            | some sub0 =>
              have hInv2 : tableOk lib P (appended ++ sub0)
                  ((s0, P + wireLen appended) :: table) := by
                intro t m hlk
                simp only [lookupSym] at hlk
                by_cases hts : s0 = t
                · rw [if_pos hts] at hlk
                  injection hlk with hm
                  refine ⟨appended, sub0, [], by simp, ?_, hm.symm⟩
                  rw [← hts]
                  exact hsub0
                · rw [if_neg hts] at hlk
                  obtain ⟨pre, subE, post, happ, hsubE, hmE⟩ := hInv t m hlk
                  refine ⟨pre, subE, post ++ sub0, ?_, hsubE, hmE⟩
                  rw [happ]
                  simp [List.append_assoc]
              obtain ⟨m, pre, post, h1, h2, h3⟩ :=
                ih (k + i0.slots) (appended ++ sub0)
                  ((s0, P + wireLen appended) :: table) hInv2 j2 hj
              have hstep1 : (linkAux lib P (i0 :: rest) k appended table).1
                  = patchCall i0 (P + wireLen appended) k
                    :: (linkAux lib P rest (k + i0.slots) (appended ++ sub0)
                          ((s0, P + wireLen appended) :: table)).1 := by
                simp [linkAux, href0, hc0, hl0, hsub0]
              have hstep2 : (linkAux lib P (i0 :: rest) k appended table).2
                  = (linkAux lib P rest (k + i0.slots) (appended ++ sub0)
                       ((s0, P + wireLen appended) :: table)).2 := by
                simp [linkAux, href0, hc0, hl0, hsub0]
              refine ⟨m, pre, post, ?_, ?_, h3⟩
              · rw [hstep1, List.getElem?_cons_succ, wireLen_take_succ,
                  ← Nat.add_assoc]
                exact h1
              · rw [hstep2]
                exact h2
            | none =>
              obtain ⟨m, pre, post, h1, h2, h3⟩ :=
                ih (k + i0.slots) appended table hInv j2 hj
              have hstep1 : (linkAux lib P (i0 :: rest) k appended table).1
                  = i0 :: (linkAux lib P rest (k + i0.slots) appended table).1 := by
                simp [linkAux, href0, hc0, hl0, hsub0]
              have hstep2 : (linkAux lib P (i0 :: rest) k appended table).2
                  = (linkAux lib P rest (k + i0.slots) appended table).2 := by
                simp [linkAux, href0, hc0, hl0, hsub0]
              refine ⟨m, pre, post, ?_, ?_, h3⟩
              · rw [hstep1, List.getElem?_cons_succ, wireLen_take_succ,
                  ← Nat.add_assoc]
                exact h1
              · rw [hstep2]
                exact h2
        · obtain ⟨m, pre, post, h1, h2, h3⟩ :=
            ih (k + i0.slots) appended table hInv j2 hj
          have hstep1 : (linkAux lib P (i0 :: rest) k appended table).1
              = i0 :: (linkAux lib P rest (k + i0.slots) appended table).1 := by
            simp [linkAux, href0, hc0]
          have hstep2 : (linkAux lib P (i0 :: rest) k appended table).2
              = (linkAux lib P rest (k + i0.slots) appended table).2 := by
            simp [linkAux, href0, hc0]
          refine ⟨m, pre, post, ?_, ?_, h3⟩
          · rw [hstep1, List.getElem?_cons_succ, wireLen_take_succ,
              ← Nat.add_assoc]
            exact h1
          · rw [hstep2]
            exact h2

/-- C7: after linking, every call site the scan resolved — call instruction
at logical index `j`, wire slot `wireOffset primary j`, referencing a symbol
the library defines — has its immediate patched to `m - (k + 1)`: the signed
wire-slot distance from the slot after the call to the first slot of the
appended sub-program copy, which the sequence decomposition and
`wireLen pre = m` pin at wire slot `m` of the linked output. -/
theorem link_call_offset (primary lib : List Instruction)
    (j : Nat) (i : Instruction) (s : String) (sub : List Instruction)
    (hj : primary[j]? = some i) (hcall : i.opCode = callOp)
    (href : i.reference = some s) (hsub : subprogram s lib = some sub) :
    ∃ m i2 pre post,
      (link primary lib)[j]? = some i2 ∧
      i2.constant = (m : Int) - ((wireOffset primary j : Nat) + 1) ∧
      i2.reference = none ∧
      link primary lib = pre ++ sub ++ post ∧
      wireLen pre = m := by
  have hInv0 : tableOk lib (wireLen primary) [] [] := by
    intro t m hlk
    simp [lookupSym] at hlk
  obtain ⟨m, preA, postA, h1, h2, h3⟩ :=
    linkAux_patches lib (wireLen primary) primary 0 [] [] hInv0 j i s sub
      hj hcall href hsub
  have hjlt : j < primary.length := by
    by_contra hcon
    push_neg at hcon
    rw [List.getElem?_len_le hcon] at hj
    cases hj
  have hlen : (linkAux lib (wireLen primary) primary 0 [] []).1.length
      = primary.length := linkAux_fst_length lib (wireLen primary) primary 0 [] []
  refine ⟨m, patchCall i m (0 + wireLen (primary.take j)),
    (linkAux lib (wireLen primary) primary 0 [] []).1 ++ preA, postA,
    ?_, ?_, rfl, ?_, ?_⟩
  · show (link primary lib)[j]? = _
    simp only [link]
    rw [List.getElem?_append_left (by rw [hlen]; exact hjlt)]
    exact h1
  · simp only [patchCall, wireOffset]
    push_cast
    ring
  · simp only [link]
    rw [h2]
    simp [List.append_assoc]
  · rw [wireLen_append,
      linkAux_fst_wireLen lib (wireLen primary) primary 0 [] [], h3]

/-- `BPFIDstSrcImm(Call, Reg0, Reg1, -1).Ref("my_func")` of the editor test. -/
def callMyFunc : Instruction := ⟨0x85, 0, 1, 0, -1, some "my_func", none⟩

/-- `BPFILdImm64(Reg0, 1337).Sym("my_func")` of the editor test. -/
def ldMyFunc : Instruction := ⟨0x18, 0, 0, 0, 1337, none, some "my_func"⟩

/-- C7 witness, the `TestEditorLink` scenario: linking
`[ld_imm64 r0 1337 (sym my_func); exit]` into `[call (ref my_func); exit]`
patches the call (wire slot 0) to the appended copy's start. -/
theorem link_call_offset_witness :
    ∃ m i2 pre post,
      (link [callMyFunc, sampleExit] [ldMyFunc, sampleExit])[0]? = some i2 ∧
      i2.constant
        = (m : Int) - ((wireOffset [callMyFunc, sampleExit] 0 : Nat) + 1) ∧
      i2.reference = none ∧
      link [callMyFunc, sampleExit] [ldMyFunc, sampleExit]
        = pre ++ [ldMyFunc, sampleExit] ++ post ∧
      wireLen pre = m :=
  link_call_offset [callMyFunc, sampleExit] [ldMyFunc, sampleExit] 0 callMyFunc
    "my_func" [ldMyFunc, sampleExit] (by decide) (by decide) (by decide)
    (by decide)

/-! ## ELF map records (modelled from the spec §4.4)

The ELF collection loader is not in the snapshot (only its test is).  §4.4
fixes the `maps`-section record layout and the resolution rule: after
relocations, the inner-map index of a map-of-maps record is replaced by an
owned copy of the specification of the map at that index in the map section's
symbol order. -/

/-- Modelled from the spec: one raw `maps`-section record — little-endian
unsigned 32-bit fields type, key size, value size, max entries, flags,
inner-map index (§4.4). -/
structure bpfMapDef where
  mapType : Nat
  keySize : Nat
  valueSize : Nat
  maxEntries : Nat
  flags : Nat
  innerIdx : Nat
deriving DecidableEq, Repr

/-- `MapSpec`: a resolved map specification owning its optional inner
specification. -/
inductive MapSpec where
  | mk (mapType keySize valueSize maxEntries flags : Nat)
      (innerMap : Option MapSpec)

def MapSpec.decEq : (a b : MapSpec) → Decidable (a = b)
  | .mk a1 a2 a3 a4 a5 none, .mk b1 b2 b3 b4 b5 none =>
    decidable_of_iff (a1 = b1 ∧ a2 = b2 ∧ a3 = b3 ∧ a4 = b4 ∧ a5 = b5) (by
      constructor
      · rintro ⟨rfl, rfl, rfl, rfl, rfl⟩
        rfl
      · intro h
        injection h with h1 h2 h3 h4 h5 h6
        exact ⟨h1, h2, h3, h4, h5⟩)
  | .mk a1 a2 a3 a4 a5 (some x), .mk b1 b2 b3 b4 b5 (some y) =>
    have : Decidable (x = y) := MapSpec.decEq x y
    decidable_of_iff (a1 = b1 ∧ a2 = b2 ∧ a3 = b3 ∧ a4 = b4 ∧ a5 = b5 ∧ x = y)
      (by
        constructor
        · rintro ⟨rfl, rfl, rfl, rfl, rfl, rfl⟩
          rfl
        · intro h
          injection h with h1 h2 h3 h4 h5 h6
          injection h6 with h7
          exact ⟨h1, h2, h3, h4, h5, h7⟩)
  | .mk _ _ _ _ _ none, .mk _ _ _ _ _ (some _) =>
    isFalse (by
      intro h
      injection h with h1 h2 h3 h4 h5 h6
      cases h6)
  | .mk _ _ _ _ _ (some _), .mk _ _ _ _ _ none =>
    isFalse (by
      intro h
      injection h with h1 h2 h3 h4 h5 h6
      cases h6)

instance : DecidableEq MapSpec := MapSpec.decEq

/-- `Hash` map type number (kernel ABI). -/
def HashType : Nat := 1

/-- `ArrayOfMaps` map type number (kernel ABI). -/
def ArrayOfMapsType : Nat := 12

/-- `HashOfMaps` map type number (kernel ABI). -/
def HashOfMapsType : Nat := 13

/-- The map-of-maps types, which carry an inner-map index. -/
def isMapOfMaps (t : Nat) : Bool := t = ArrayOfMapsType || t = HashOfMapsType

/-- The specification carried by a record itself, without inner resolution. -/
def baseSpec (d : bpfMapDef) : MapSpec :=
  .mk d.mapType d.keySize d.valueSize d.maxEntries d.flags none

/-- Modelled from the spec: resolve one record against the map section —
for a map-of-maps type, replace the inner index by an owned copy of the
spec of the record at that index in symbol order; fail when the index is out
of range (§4.4, §3 invariant). -/
def resolveMapSpec (defs : List (String × bpfMapDef)) (d : bpfMapDef) :
    Option MapSpec :=
  if isMapOfMaps d.mapType then
    match defs[d.innerIdx]? with
    | none => none
    | some nd => some (.mk d.mapType d.keySize d.valueSize d.maxEntries
        d.flags (some (baseSpec nd.2)))
  else some (baseSpec d)

/-- Apply `f` to every element, failing as soon as `f` does (the loader's
per-record loop). -/
def mapOptionAll {α β : Type} (f : α → Option β) : List α → Option (List β)
  | [] => some []
  | a :: t =>
    match f a with
    | none => none
    | some b =>
      match mapOptionAll f t with
      | none => none
      | some bs => some (b :: bs)

/-- Modelled from the spec: the maps part of `LoadCollectionSpec` — one named
specification per record of the `maps` section, inner indices resolved. -/
def loadMaps (defs : List (String × bpfMapDef)) :
    Option (List (String × MapSpec)) :=
  mapOptionAll (fun nd =>
    match resolveMapSpec defs nd.2 with
    | none => none
    | some sp => some (nd.1, sp)) defs

theorem mapOptionAll_getElem {α β : Type} (f : α → Option β)
    (l : List α) (r : List β) (h : mapOptionAll f l = some r)
    (i : Nat) (x : α) (hx : l[i]? = some x) :
    ∃ y, f x = some y ∧ r[i]? = some y := by
  induction l generalizing r i with
  | nil => simp at hx
  | cons a t ih =>
    simp only [mapOptionAll] at h
    cases hfa : f a with
    | none => rw [hfa] at h; cases h
    | some b =>
      rw [hfa] at h
      cases hrec : mapOptionAll f t with
      | none => rw [hrec] at h; cases h
      | some bs =>
        rw [hrec] at h
        injection h with h2
        subst h2
        cases i with
        | zero =>
          simp only [List.getElem?_cons_zero, Option.some.injEq] at hx
          subst hx
          exact ⟨b, hfa, by simp⟩
        | succ i2 =>
          simp only [List.getElem?_cons_succ] at hx
          obtain ⟨y, hy1, hy2⟩ := ih bs hrec i2 hx
          exact ⟨y, hy1, by simpa using hy2⟩

/-- C8: in a successfully loaded map section, every map-of-maps record's
inner-map index has been replaced by an owned inner specification equal to
the specification of the record at that index in the map section's symbol
order. -/
theorem loadMaps_resolves_inner (defs : List (String × bpfMapDef))
    (result : List (String × MapSpec)) (i : Nat) (n : String) (d : bpfMapDef)
    (hload : loadMaps defs = some result)
    (hd : defs[i]? = some (n, d))
    (hmm : isMapOfMaps d.mapType = true) :
    ∃ nd, defs[d.innerIdx]? = some nd ∧
      result[i]? = some (n, MapSpec.mk d.mapType d.keySize d.valueSize
        d.maxEntries d.flags (some (baseSpec nd.2))) := by
  obtain ⟨y, hf, hr⟩ := mapOptionAll_getElem _ defs result hload i (n, d) hd
  simp only at hf
  cases hres : resolveMapSpec defs d with
  | none => rw [hres] at hf; cases hf
  | some sp =>
    rw [hres] at hf
    injection hf with hf2
    subst hf2
    simp only [resolveMapSpec, hmm, if_true] at hres
    cases hnd : defs[d.innerIdx]? with
    | none => rw [hnd] at hres; cases hres
    | some nd =>
      rw [hnd] at hres
      injection hres with hres2
      subst hres2
      exact ⟨nd, rfl, hr⟩

/-- The map records of the loader-test ELF, in map-section symbol order. -/
def testMapDefs : List (String × bpfMapDef) :=
  [("hash_map", ⟨1, 4, 2, 42, 4242, 0⟩),
   ("hash_map2", ⟨1, 2, 1, 21, 2121, 0⟩),
   ("array_of_hash_map", ⟨12, 4, 0, 2, 0, 0⟩),
   ("hash_of_hash_map", ⟨13, 4, 0, 2, 0, 1⟩)]

/-- The map specifications the loader test expects for those records. -/
def testMapSpecs : List (String × MapSpec) :=
  [("hash_map", .mk 1 4 2 42 4242 none),
   ("hash_map2", .mk 1 2 1 21 2121 none),
   ("array_of_hash_map", .mk 12 4 0 2 0 (some (.mk 1 4 2 42 4242 none))),
   ("hash_of_hash_map", .mk 13 4 0 2 0 (some (.mk 1 2 1 21 2121 none)))]

/-- C8 witness, the `TestLoadCollectionSpec` scenario: `array_of_hash_map`
(record index 2, inner index 0) ends up with an owned inner specification
equal to `hash_map`'s. -/
theorem loadMaps_resolves_inner_witness :
    ∃ nd, testMapDefs[(0 : Nat)]? = some nd ∧
      testMapSpecs[(2 : Nat)]? = some ("array_of_hash_map",
        MapSpec.mk 12 4 0 2 0 (some (baseSpec nd.2))) :=
  loadMaps_resolves_inner testMapDefs testMapSpecs 2 "array_of_hash_map"
    ⟨12, 4, 0, 2, 0, 0⟩ (by decide) (by decide) (by decide)
